import Mathlib

/-!
# Verification of the Cosmos PoS staking game simulator

Shallow embedding of `staking_game.py`: a scenario holds a fixed validator
count, a list of holdings (one per holder) and a distribution mapping each
holder to the list of amounts its holding is split into.  Amounts are
modelled as rationals (the spec's data model uses non-negative reals and the
program's arithmetic is exact on them apart from floating-point rounding).

The distribution dictionary has keys `0 .. H-1`, so it is modelled as a list
of part-lists indexed by holder.  Python's `sorted` is modelled by insertion
sort (any correct comparison sort of rationals produces the same list), and
the slice `xs[-n:]` by `lastSlice` below, including its `n = 0` behaviour of
returning the whole list.
-/

-- Rational arithmetic is `@[irreducible]` in Batteries; re-allow unfolding so
-- that concrete scenarios can be evaluated by `decide` in closed theorems.
set_option allowUnsafeReducibility true
attribute [semireducible] Rat.add Rat.mul Rat.inv Rat.sub

set_option maxRecDepth 4000

namespace StakingGame

/-- `EPS = 0.1` (source line 9). -/
def EPS : ℚ := 1/10

/-- Python's `sorted`: ascending comparison sort. -/
def pySorted (xs : List ℚ) : List ℚ := List.insertionSort (· ≤ ·) xs

/-- Python's slice `xs[-n:]` for a natural `n`: the last `n` elements
(all of them if `n ≥ len(xs)`), and the **whole** list when `n = 0`
(since `xs[-0:] = xs[0:] = xs`). -/
def lastSlice (n : Nat) (xs : List ℚ) : List ℚ :=
  if n = 0 then xs else xs.drop (xs.length - n)

/-- State of `class Scenario` (source lines 12-21). -/
structure Scenario where
  number_of_validators : Nat
  holdings : List ℚ
  distribution : List (List ℚ)
deriving DecidableEq, Repr

/-- `Scenario.__init__` (source lines 14-21). -/
def Scenario.init (number_of_validators : Nat) : Scenario :=
  { number_of_validators := number_of_validators, holdings := [], distribution := [] }

/-- `set_holdings` (source lines 23-30): record the holdings and give each
holder the trivial one-account distribution `[amount]`. -/
def set_holdings (s : Scenario) (holdings : List ℚ) : Scenario :=
  { s with
    holdings := holdings
    distribution := holdings.map (fun amount => [amount]) }

/-- The guard of the `while` loop in `optimize_holder` (source line 46):
`k < len(top_amounts) and (holding / (k+1)) >= top_amounts[k-1] + EPS`. -/
def findKCond (holding : ℚ) (top_amounts : List ℚ) (k : Nat) : Prop :=
  k < top_amounts.length ∧ top_amounts.getD (k-1) 0 + EPS ≤ holding / (k+1)

instance decFindKCond (holding : ℚ) (top_amounts : List ℚ) (k : Nat) :
    Decidable (findKCond holding top_amounts k) :=
  inferInstanceAs (Decidable (_ ∧ _))

/-- The `while` loop of source lines 45-47, with an explicit fuel argument:
each iteration increments `k`, and the guard requires `k < len(top_amounts)`,
so the loop performs fewer than `len(top_amounts)` iterations; any fuel of at
least `len(top_amounts)` makes this function agree with the unbounded loop
(`findKAux_spec` below proves the loop's exit conditions from that bound). -/
def findKAux (holding : ℚ) (top_amounts : List ℚ) : Nat → Nat → Nat
  | 0, k => k
  | fuel+1, k =>
    if findKCond holding top_amounts k then findKAux holding top_amounts fuel (k+1)
    else k

/-- `k = 1; while ...: k += 1` (source lines 45-47), started at `k`. -/
def findK (holding : ℚ) (top_amounts : List ℚ) (k : Nat) : Nat :=
  findKAux holding top_amounts top_amounts.length k

/-- Steps 1-4 of `optimize_holder` (source lines 39-49): the allocation the
holder moves to.  Step 1 (`del self.distribution[holder]`) and step 2 appear
as the `eraseIdx`/`flatten` pool of every other holder's parts. -/
def bestAlloc (s : Scenario) (holder : Nat) : List ℚ :=
  let all_amounts := (s.distribution.eraseIdx holder).flatten
  let top_amounts := lastSlice s.number_of_validators (pySorted all_amounts)
  let holding := s.holdings.getD holder 0
  let k := findK holding top_amounts 1
  List.replicate k (holding / k)

/-- `optimize_holder` (source lines 32-53): replace the holder's entry by its
best-response allocation (step 5) and report whether it changed. -/
def optimize_holder (s : Scenario) (holder : Nat) : Scenario × Bool :=
  let a_old := s.distribution.getD holder []
  let allocation := bestAlloc s holder
  ({ s with distribution := s.distribution.set holder allocation },
   decide (allocation ≠ a_old))

/-- The `for` loop of `optimize_all_holders` (source lines 59-62), carrying
the `changes_made` accumulator through the listed holders in order. -/
def sweepGo : Scenario → List Nat → Bool → Scenario × Bool
  | s, [], changes_made => (s, changes_made)
  | s, holder :: rest, changes_made =>
    sweepGo (optimize_holder s holder).1 rest
      (changes_made || (optimize_holder s holder).2)

/-- `optimize_all_holders` (source lines 55-63). -/
def optimize_all_holders (s : Scenario) : Scenario × Bool :=
  sweepGo s (List.range s.holdings.length) false

/-- `sum(sorted(xs)[-n:])`, shared by both staking metrics. -/
def topNsum (n : Nat) (xs : List ℚ) : ℚ := (lastSlice n (pySorted xs)).sum

/-- `naive_staking_amout` (source lines 74-78). -/
def naive_staking_amout (s : Scenario) : ℚ :=
  topNsum s.number_of_validators s.holdings

/-- `optimized_staking_amout` (source lines 80-86); the dictionary values are
flattened in holder order (the subsequent sort makes the order immaterial). -/
def optimized_staking_amout (s : Scenario) : ℚ :=
  topNsum s.number_of_validators s.distribution.flatten

/-- `stake_loss` (source lines 88-92): the division raises
`ZeroDivisionError` when `naive_staking_amout` is zero, modelled as `none`;
otherwise the quotient is returned. -/
def stake_loss (s : Scenario) : Option ℚ :=
  if naive_staking_amout s = 0 then none
  else some ((naive_staking_amout s - optimized_staking_amout s) / naive_staking_amout s)

/-- States reachable by the engine: `set_holdings` on a fresh scenario,
followed by any sequence of (in-range) `optimize_holder` calls and
`optimize_all_holders` sweeps. -/
inductive Reachable : Scenario → Prop
  | start (n : Nat) (hs : List ℚ) : Reachable (set_holdings (Scenario.init n) hs)
  | opt {s : Scenario} (holder : Nat) : Reachable s → holder < s.holdings.length →
      Reachable (optimize_holder s holder).1
  | sweep {s : Scenario} : Reachable s → Reachable (optimize_all_holders s).1

/-! ## List index helpers -/

theorem getD_set_self {α : Type} (l : List α) (i : Nat) (a d : α) (h : i < l.length) :
    (l.set i a).getD i d = a := by
  induction l generalizing i with
  | nil => simp at h
  | cons x xs ih =>
    cases i with
    | zero => rfl
    | succ j => exact ih j (by simpa using h)

theorem getD_set_ne {α : Type} (l : List α) {i j : Nat} (h : i ≠ j) (a d : α) :
    (l.set i a).getD j d = l.getD j d := by
  induction l generalizing i j with
  | nil => rfl
  | cons x xs ih =>
    cases i with
    | zero =>
      cases j with
      | zero => exact absurd rfl h
      | succ j' => rfl
    | succ i' =>
      cases j with
      | zero => rfl
      | succ j' => exact ih (fun e => h (by rw [e]))

theorem set_getD_self {α : Type} (l : List α) (i : Nat) (d : α) :
    l.set i (l.getD i d) = l := by
  induction l generalizing i with
  | nil => rfl
  | cons x xs ih =>
    cases i with
    | zero => rfl
    | succ j => simpa using ih j

theorem getD_eq_getElem {α : Type} (l : List α) (i : Nat) (d : α) (h : i < l.length) :
    l.getD i d = l[i] := by
  simp [List.getD_eq_getElem?_getD, List.getElem?_eq_getElem h]

/-! ## The `while` loop searching for the split count -/

theorem findKAux_ge (holding : ℚ) (top_amounts : List ℚ) :
    ∀ fuel k, k ≤ findKAux holding top_amounts fuel k := by
  intro fuel
  induction fuel with
  | zero => intro k; exact Nat.le_refl k
  | succ fuel ih =>
    intro k
    unfold findKAux
    split
    · exact Nat.le_trans (Nat.le_succ k) (ih (k+1))
    · exact Nat.le_refl k

theorem findKAux_le_max (holding : ℚ) (top_amounts : List ℚ) :
    ∀ fuel k, findKAux holding top_amounts fuel k ≤ max k top_amounts.length := by
  intro fuel
  induction fuel with
  | zero => intro k; exact Nat.le_max_left _ _
  | succ fuel ih =>
    intro k
    unfold findKAux
    split
    · rename_i hc
      exact Nat.le_trans (ih (k+1))
        (Nat.max_le.mpr ⟨Nat.succ_le_of_lt (Nat.lt_of_lt_of_le hc.1 (Nat.le_max_right k _)) , Nat.le_max_right _ _⟩)
    · exact Nat.le_max_left _ _

theorem findKAux_spec (holding : ℚ) (top_amounts : List ℚ) :
    ∀ fuel k, top_amounts.length ≤ fuel + k →
      (∀ j, k ≤ j → j < findKAux holding top_amounts fuel k →
        findKCond holding top_amounts j) ∧
      ¬ findKCond holding top_amounts (findKAux holding top_amounts fuel k) := by
  intro fuel
  induction fuel with
  | zero =>
    intro k hk
    constructor
    · intro j hkj hjlt
      simp only [findKAux] at hjlt
      omega
    · intro hc
      have he : findKAux holding top_amounts 0 k = k := rfl
      rw [he] at hc
      exact absurd hc.1 (by omega)
  | succ fuel ih =>
    intro k hk
    unfold findKAux
    split
    · rename_i hc
      have hk' : top_amounts.length ≤ fuel + (k + 1) := by omega
      refine ⟨?_, (ih (k+1) hk').2⟩
      intro j hkj hjlt
      rcases Nat.eq_or_lt_of_le hkj with rfl | hlt
      · exact hc
      · exact (ih (k+1) hk').1 j hlt hjlt
    · rename_i hc
      exact ⟨fun j hkj hjlt => absurd (Nat.lt_of_le_of_lt hkj hjlt) (Nat.lt_irrefl k), hc⟩

theorem findK_one_ge (holding : ℚ) (top_amounts : List ℚ) :
    1 ≤ findK holding top_amounts 1 :=
  findKAux_ge holding top_amounts top_amounts.length 1

theorem findK_one_le (holding : ℚ) (top_amounts : List ℚ) :
    findK holding top_amounts 1 ≤ max 1 top_amounts.length :=
  findKAux_le_max holding top_amounts top_amounts.length 1

theorem findK_one_spec (holding : ℚ) (top_amounts : List ℚ) :
    (∀ j, 1 ≤ j → j < findK holding top_amounts 1 →
      findKCond holding top_amounts j) ∧
    ¬ findKCond holding top_amounts (findK holding top_amounts 1) :=
  findKAux_spec holding top_amounts top_amounts.length 1 (Nat.le_succ_of_le (Nat.le_refl _))

/-! ## Slices -/

theorem lastSlice_eq_drop {n : Nat} (hn : n ≠ 0) (xs : List ℚ) :
    lastSlice n xs = xs.drop (xs.length - n) := by
  simp [lastSlice, hn]

theorem lastSlice_length_le {n : Nat} (hn : n ≠ 0) (xs : List ℚ) :
    (lastSlice n xs).length ≤ n := by
  rw [lastSlice_eq_drop hn]
  simp only [List.length_drop]
  omega

/-! ## Basic facts about a single best-response step -/

theorem optimize_holder_fst (s : Scenario) (holder : Nat) :
    (optimize_holder s holder).1 =
      { s with distribution := s.distribution.set holder (bestAlloc s holder) } := rfl

theorem optimize_holder_snd (s : Scenario) (holder : Nat) :
    (optimize_holder s holder).2 =
      decide (bestAlloc s holder ≠ s.distribution.getD holder []) := rfl

theorem optimize_holder_snd_false {s : Scenario} {holder : Nat}
    (h : (optimize_holder s holder).2 = false) :
    bestAlloc s holder = s.distribution.getD holder [] := by
  rw [optimize_holder_snd] at h
  simpa using h

theorem optimize_holder_of_unchanged {s : Scenario} {holder : Nat}
    (h : (optimize_holder s holder).2 = false) :
    (optimize_holder s holder).1 = s := by
  rw [optimize_holder_fst, optimize_holder_snd_false h, set_getD_self]

theorem bestAlloc_length (s : Scenario) (holder : Nat) :
    (bestAlloc s holder).length =
      findK (s.holdings.getD holder 0)
        (lastSlice s.number_of_validators
          (pySorted ((s.distribution.eraseIdx holder).flatten))) 1 := by
  simp [bestAlloc]

theorem bestAlloc_ne_nil (s : Scenario) (holder : Nat) : bestAlloc s holder ≠ [] := by
  have h1 := findK_one_ge (s.holdings.getD holder 0)
    (lastSlice s.number_of_validators (pySorted ((s.distribution.eraseIdx holder).flatten)))
  intro h
  have hlen := congrArg List.length h
  rw [bestAlloc_length] at hlen
  simp only [List.length_nil] at hlen
  omega

theorem bestAlloc_length_le {s : Scenario} (holder : Nat)
    (hN : 1 ≤ s.number_of_validators) :
    (bestAlloc s holder).length ≤ s.number_of_validators := by
  rw [bestAlloc_length]
  have h1 := findK_one_le (s.holdings.getD holder 0)
    (lastSlice s.number_of_validators (pySorted ((s.distribution.eraseIdx holder).flatten)))
  have h2 := lastSlice_length_le (n := s.number_of_validators) (by omega)
    (pySorted ((s.distribution.eraseIdx holder).flatten))
  omega

theorem bestAlloc_sum (s : Scenario) (holder : Nat) :
    (bestAlloc s holder).sum = s.holdings.getD holder 0 := by
  have h1 := findK_one_ge (s.holdings.getD holder 0)
    (lastSlice s.number_of_validators (pySorted ((s.distribution.eraseIdx holder).flatten)))
  set k := findK (s.holdings.getD holder 0)
    (lastSlice s.number_of_validators (pySorted ((s.distribution.eraseIdx holder).flatten))) 1 with hk
  show (List.replicate k (s.holdings.getD holder 0 / k)).sum = s.holdings.getD holder 0
  rw [List.sum_replicate, nsmul_eq_mul]
  have hk0 : (k : ℚ) ≠ 0 := Nat.cast_ne_zero.mpr (by omega)
  field_simp

theorem bestAlloc_nonneg {s : Scenario} (holder : Nat)
    (h0 : 0 ≤ s.holdings.getD holder 0) :
    ∀ p ∈ bestAlloc s holder, 0 ≤ p := by
  intro p hp
  have : p = s.holdings.getD holder 0 /
      (findK (s.holdings.getD holder 0)
        (lastSlice s.number_of_validators
          (pySorted ((s.distribution.eraseIdx holder).flatten))) 1 : Nat) :=
    List.eq_of_mem_replicate hp
  rw [this]
  positivity

/-! ## Sweeps -/

theorem sweepGo_false :
    ∀ (l : List Nat) (s : Scenario) (b : Bool), (sweepGo s l b).2 = false →
      b = false ∧ (sweepGo s l b).1 = s ∧
        ∀ holder ∈ l, (optimize_holder s holder).2 = false := by
  intro l
  induction l with
  | nil => intro s b hb; exact ⟨hb, rfl, by simp⟩
  | cons h0 rest ih =>
    intro s b hb
    simp only [sweepGo] at hb ⊢
    obtain ⟨hor, hst, hrest⟩ := ih _ _ hb
    have hb0 : b = false := by
      cases b
      · rfl
      · simp at hor
    have hc0 : (optimize_holder s h0).2 = false := by
      cases hc : (optimize_holder s h0).2
      · rfl
      · rw [hb0, hc] at hor; simp at hor
    have hid : (optimize_holder s h0).1 = s := optimize_holder_of_unchanged hc0
    rw [hid] at hrest
    refine ⟨hb0, by rw [hst]; exact hid, ?_⟩
    intro holder hmem
    rcases List.mem_cons.mp hmem with rfl | hmem'
    · exact hc0
    · exact hrest holder hmem'

theorem optimize_all_holders_fix {s : Scenario}
    (hfix : (optimize_all_holders s).2 = false) :
    (optimize_all_holders s).1 = s ∧
      ∀ holder ∈ List.range s.holdings.length, (optimize_holder s holder).2 = false := by
  obtain ⟨-, hst, hall⟩ := sweepGo_false (List.range s.holdings.length) s false hfix
  exact ⟨hst, hall⟩

/-- Spec-side sweep: visit the listed holders left to right, threading the
state, and record every best-response call's changed flag. -/
def specSweep : Scenario → List Nat → Scenario × List Bool
  | s, [] => (s, [])
  | s, holder :: rest =>
    ((specSweep (optimize_holder s holder).1 rest).1,
     (optimize_holder s holder).2 :: (specSweep (optimize_holder s holder).1 rest).2)

theorem sweepGo_eq_specSweep :
    ∀ (l : List Nat) (s : Scenario) (b : Bool),
      (sweepGo s l b).1 = (specSweep s l).1 ∧
      (sweepGo s l b).2 = (b || (specSweep s l).2.any (fun x => x)) := by
  intro l
  induction l with
  | nil => intro s b; simp [sweepGo, specSweep]
  | cons h0 rest ih =>
    intro s b
    simp only [sweepGo, specSweep, List.any_cons]
    obtain ⟨h1, h2⟩ := ih (optimize_holder s h0).1 (b || (optimize_holder s h0).2)
    exact ⟨h1, by rw [h2, Bool.or_assoc]⟩

/-! ## Claim theorems (first group) -/

/-- Following the spec's words for claim C1: collect all parts belonging to
every other holder into one pool, sort ascending, and take the largest
`min(number_of_validators, count)` of them. -/
def specTop (s : Scenario) (holder : Nat) : List ℚ :=
  (pySorted ((s.distribution.eraseIdx holder).flatten)).drop
    ((s.distribution.eraseIdx holder).flatten.length -
      min s.number_of_validators (s.distribution.eraseIdx holder).flatten.length)

theorem specTop_eq_lastSlice {s : Scenario} (holder : Nat)
    (hN : 1 ≤ s.number_of_validators) :
    specTop s holder =
      lastSlice s.number_of_validators
        (pySorted ((s.distribution.eraseIdx holder).flatten)) := by
  rw [specTop, lastSlice_eq_drop (by omega)]
  have hlen : (pySorted ((s.distribution.eraseIdx holder).flatten)).length =
      (s.distribution.eraseIdx holder).flatten.length := by
    simp [pySorted, List.length_insertionSort]
  rw [hlen]
  congr 1
  omega

/-- C1: `optimize_holder h` replaces holder `h`'s entry with `k` equal parts
of size `holdings[h]/k`, where `k` is reached from `k = 1` by incrementing
while `k < len(top)` and `holding/(k+1) ≥ top[k-1] + EPS`, `top` being the
ascending-sorted largest `min(number_of_validators, count)` parts of all
other holders (holder `h`'s own prior parts excluded). -/
theorem claim1_best_response (s : Scenario) (holder : Nat)
    (hh : holder < s.distribution.length) (hN : 1 ≤ s.number_of_validators) :
    ∃ k : Nat,
      (optimize_holder s holder).1.distribution.getD holder [] =
        List.replicate k (s.holdings.getD holder 0 / k) ∧
      1 ≤ k ∧
      (∀ j, 1 ≤ j → j < k →
        findKCond (s.holdings.getD holder 0) (specTop s holder) j) ∧
      ¬ findKCond (s.holdings.getD holder 0) (specTop s holder) k := by
  rw [specTop_eq_lastSlice holder hN]
  refine ⟨findK (s.holdings.getD holder 0)
      (lastSlice s.number_of_validators
        (pySorted ((s.distribution.eraseIdx holder).flatten))) 1, ?_, ?_, ?_, ?_⟩
  · rw [optimize_holder_fst]
    exact getD_set_self _ _ _ _ hh
  · exact findK_one_ge _ _
  · exact (findK_one_spec _ _).1
  · exact (findK_one_spec _ _).2

theorem claim1_witness :
    ∃ k : Nat,
      (optimize_holder (set_holdings (Scenario.init 5) [1, 2, 12]) 2).1.distribution.getD 2 [] =
        List.replicate k ((set_holdings (Scenario.init 5) [1, 2, 12]).holdings.getD 2 0 / k) ∧
      1 ≤ k ∧
      (∀ j, 1 ≤ j → j < k →
        findKCond ((set_holdings (Scenario.init 5) [1, 2, 12]).holdings.getD 2 0)
          (specTop (set_holdings (Scenario.init 5) [1, 2, 12]) 2) j) ∧
      ¬ findKCond ((set_holdings (Scenario.init 5) [1, 2, 12]).holdings.getD 2 0)
          (specTop (set_holdings (Scenario.init 5) [1, 2, 12]) 2) k :=
  claim1_best_response (set_holdings (Scenario.init 5) [1, 2, 12]) 2 (by decide) (by decide)

/-- C3: if a full sweep reports no change, running it again still reports no
change and leaves the distribution exactly as it was. -/
theorem claim3_idempotent (s : Scenario)
    (hfix : (optimize_all_holders s).2 = false) :
    (optimize_all_holders (optimize_all_holders s).1).2 = false ∧
    (optimize_all_holders (optimize_all_holders s).1).1.distribution =
      (optimize_all_holders s).1.distribution := by
  have hst : (optimize_all_holders s).1 = s := (optimize_all_holders_fix hfix).1
  rw [hst]
  exact ⟨hfix, congrArg Scenario.distribution hst⟩

theorem claim3_witness :
    (optimize_all_holders
        (optimize_all_holders (set_holdings (Scenario.init 1) [3])).1).2 = false ∧
    (optimize_all_holders
        (optimize_all_holders (set_holdings (Scenario.init 1) [3])).1).1.distribution =
      (optimize_all_holders (set_holdings (Scenario.init 1) [3])).1.distribution :=
  claim3_idempotent (set_holdings (Scenario.init 1) [3]) (by decide)

/-- C7: the sweep visits holders `0 .. H-1` in increasing order threading the
updated state (`specSweep` over `List.range H`), returns true exactly when
some best-response call returned true, and a best-response call returns true
exactly when the holder's entry after the call differs from before. -/
theorem claim7_sweep_contract (s : Scenario) (holder : Nat)
    (hh : holder < s.distribution.length) :
    (optimize_all_holders s).1 = (specSweep s (List.range s.holdings.length)).1 ∧
    ((optimize_all_holders s).2 = true ↔
      true ∈ (specSweep s (List.range s.holdings.length)).2) ∧
    ((optimize_holder s holder).2 = true ↔
      (optimize_holder s holder).1.distribution.getD holder [] ≠
        s.distribution.getD holder []) := by
  obtain ⟨h1, h2⟩ := sweepGo_eq_specSweep (List.range s.holdings.length) s false
  refine ⟨h1, ?_, ?_⟩
  · rw [show (optimize_all_holders s).2 = (sweepGo s (List.range s.holdings.length) false).2 from rfl,
      h2]
    simp [List.any_eq_true]
  · rw [optimize_holder_snd, optimize_holder_fst]
    have hset : (s.distribution.set holder (bestAlloc s holder)).getD holder [] =
        bestAlloc s holder := getD_set_self _ _ _ _ hh
    simp only [hset]
    simp

theorem claim7_witness :
    (optimize_all_holders (set_holdings (Scenario.init 5) [1, 2, 12])).1 =
      (specSweep (set_holdings (Scenario.init 5) [1, 2, 12])
        (List.range (set_holdings (Scenario.init 5) [1, 2, 12]).holdings.length)).1 ∧
    ((optimize_all_holders (set_holdings (Scenario.init 5) [1, 2, 12])).2 = true ↔
      true ∈ (specSweep (set_holdings (Scenario.init 5) [1, 2, 12])
        (List.range (set_holdings (Scenario.init 5) [1, 2, 12]).holdings.length)).2) ∧
    ((optimize_holder (set_holdings (Scenario.init 5) [1, 2, 12]) 0).2 = true ↔
      (optimize_holder (set_holdings (Scenario.init 5) [1, 2, 12]) 0).1.distribution.getD 0 [] ≠
        (set_holdings (Scenario.init 5) [1, 2, 12]).distribution.getD 0 []) :=
  claim7_sweep_contract (set_holdings (Scenario.init 5) [1, 2, 12]) 0 (by decide)

/-- C8: with a single holder and at least one validator slot the competitor
pool is empty, so the split count stays `k = 1` and the holder's allocation
is the single-part list `[holding]`. -/
theorem claim8_single_holder (number_of_validators : Nat) (a : ℚ)
    (hN : 1 ≤ number_of_validators) :
    findK a
      (lastSlice number_of_validators
        (pySorted
          (((set_holdings (Scenario.init number_of_validators) [a]).distribution.eraseIdx 0).flatten)))
      1 = 1 ∧
    (optimize_holder (set_holdings (Scenario.init number_of_validators) [a]) 0).1.distribution =
      [[a]] := by
  have hpool :
      ((set_holdings (Scenario.init number_of_validators) [a]).distribution.eraseIdx 0).flatten =
        ([] : List ℚ) := rfl
  have hslice : lastSlice number_of_validators (pySorted ([] : List ℚ)) = [] := by
    simp [pySorted, lastSlice]
  constructor
  · rw [hpool, hslice]
    rfl
  · have hba : bestAlloc (set_holdings (Scenario.init number_of_validators) [a]) 0 = [a] := by
      have h0 : bestAlloc (set_holdings (Scenario.init number_of_validators) [a]) 0 =
          List.replicate (findK a (lastSlice number_of_validators (pySorted [])) 1)
            (a / (findK a (lastSlice number_of_validators (pySorted [])) 1 : Nat)) := rfl
      rw [h0, hslice]
      show List.replicate 1 (a / ((1 : Nat) : ℚ)) = [a]
      norm_num
    show ((set_holdings (Scenario.init number_of_validators) [a]).distribution.set 0
        (bestAlloc (set_holdings (Scenario.init number_of_validators) [a]) 0)) = [[a]]
    rw [hba]
    rfl

theorem claim8_witness :
    findK 5
      (lastSlice 1
        (pySorted (((set_holdings (Scenario.init 1) [5]).distribution.eraseIdx 0).flatten)))
      1 = 1 ∧
    (optimize_holder (set_holdings (Scenario.init 1) [5]) 0).1.distribution = [[5]] :=
  claim8_single_holder 1 5 (by decide)

/-- C9: a best-response call changes nothing but the optimized holder's own
entry: validator count, holdings, the set of holder keys (the entry count)
and every other holder's entry are untouched. -/
theorem claim9_frame (s : Scenario) (holder i : Nat) (hne : i ≠ holder) :
    (optimize_holder s holder).1.number_of_validators = s.number_of_validators ∧
    (optimize_holder s holder).1.holdings = s.holdings ∧
    (optimize_holder s holder).1.distribution.length = s.distribution.length ∧
    (optimize_holder s holder).1.distribution.getD i [] = s.distribution.getD i [] := by
  rw [optimize_holder_fst]
  exact ⟨rfl, rfl, List.length_set _ _ _,
    getD_set_ne _ (fun e => hne e.symm) _ _⟩

theorem claim9_witness :
    (optimize_holder (set_holdings (Scenario.init 5) [1, 2, 12]) 2).1.number_of_validators =
      (set_holdings (Scenario.init 5) [1, 2, 12]).number_of_validators ∧
    (optimize_holder (set_holdings (Scenario.init 5) [1, 2, 12]) 2).1.holdings =
      (set_holdings (Scenario.init 5) [1, 2, 12]).holdings ∧
    (optimize_holder (set_holdings (Scenario.init 5) [1, 2, 12]) 2).1.distribution.length =
      (set_holdings (Scenario.init 5) [1, 2, 12]).distribution.length ∧
    (optimize_holder (set_holdings (Scenario.init 5) [1, 2, 12]) 2).1.distribution.getD 0 [] =
      (set_holdings (Scenario.init 5) [1, 2, 12]).distribution.getD 0 [] :=
  claim9_frame (set_holdings (Scenario.init 5) [1, 2, 12]) 2 0 (by decide)

/-! ## Invariants along reachable states -/

theorem set_of_length_le {α : Type} (l : List α) {i : Nat} (h : l.length ≤ i) (a : α) :
    l.set i a = l := by
  induction l generalizing i with
  | nil => rfl
  | cons x xs ih =>
    cases i with
    | zero => simp at h
    | succ j => simpa using ih (by simpa using h)

/-- Conservation: every listed holder's parts sum to its holding. -/
def conserves (s : Scenario) : Prop :=
  ∀ holder, holder < s.distribution.length →
    (s.distribution.getD holder []).sum = s.holdings.getD holder 0

/-- Split-count bound: every listed holder's parts list is non-empty and no
longer than the validator count. -/
def partsBound (s : Scenario) : Prop :=
  ∀ holder, holder < s.distribution.length →
    s.distribution.getD holder [] ≠ [] ∧
    (s.distribution.getD holder []).length ≤ s.number_of_validators

theorem conserves_optimize_holder {s : Scenario} (holder : Nat)
    (hc : conserves s) : conserves (optimize_holder s holder).1 := by
  intro h hlt
  rw [optimize_holder_fst] at hlt ⊢
  simp only [List.length_set] at hlt
  by_cases heq : holder = h
  · subst heq
    by_cases hin : holder < s.distribution.length
    · rw [getD_set_self _ _ _ _ hin]
      exact bestAlloc_sum s holder
    · exact absurd hlt hin
  · rw [getD_set_ne _ heq]
    exact hc h hlt

theorem partsBound_optimize_holder {s : Scenario} (holder : Nat)
    (hN : 1 ≤ s.number_of_validators) (hp : partsBound s) :
    partsBound (optimize_holder s holder).1 := by
  intro h hlt
  rw [optimize_holder_fst] at hlt ⊢
  simp only [List.length_set] at hlt
  by_cases heq : holder = h
  · subst heq
    rw [getD_set_self _ _ _ _ hlt]
    exact ⟨bestAlloc_ne_nil s holder, bestAlloc_length_le holder hN⟩
  · rw [getD_set_ne _ heq]
    exact hp h hlt

theorem sweepGo_fields :
    ∀ (l : List Nat) (s : Scenario) (b : Bool),
      (sweepGo s l b).1.number_of_validators = s.number_of_validators ∧
      (sweepGo s l b).1.holdings = s.holdings ∧
      (sweepGo s l b).1.distribution.length = s.distribution.length := by
  intro l
  induction l with
  | nil => intro s b; exact ⟨rfl, rfl, rfl⟩
  | cons h0 rest ih =>
    intro s b
    obtain ⟨h1, h2, h3⟩ := ih (optimize_holder s h0).1 (b || (optimize_holder s h0).2)
    refine ⟨h1.trans rfl, h2.trans rfl, h3.trans ?_⟩
    rw [optimize_holder_fst]
    exact List.length_set _ _ _

theorem sweepGo_conserves :
    ∀ (l : List Nat) (s : Scenario) (b : Bool),
      conserves s → conserves (sweepGo s l b).1 := by
  intro l
  induction l with
  | nil => intro s b hc; exact hc
  | cons h0 rest ih =>
    intro s b hc
    exact ih _ _ (conserves_optimize_holder h0 hc)

theorem sweepGo_partsBound :
    ∀ (l : List Nat) (s : Scenario) (b : Bool),
      1 ≤ s.number_of_validators → partsBound s → partsBound (sweepGo s l b).1 := by
  intro l
  induction l with
  | nil => intro s b _ hp; exact hp
  | cons h0 rest ih =>
    intro s b hN hp
    exact ih _ _ hN (partsBound_optimize_holder h0 hN hp)

theorem reachable_fields {s : Scenario} (hr : Reachable s) :
    s.distribution.length = s.holdings.length := by
  induction hr with
  | start n hs => simp [set_holdings]
  | opt holder hr hlt ih =>
    rw [optimize_holder_fst]
    simpa using ih
  | sweep hr ih =>
    obtain ⟨-, h2, h3⟩ := sweepGo_fields (List.range _) _ false
    rw [optimize_all_holders, h2, h3]
    exact ih

theorem reachable_conserves {s : Scenario} (hr : Reachable s) : conserves s := by
  induction hr with
  | start n hs =>
    intro holder hlt
    simp only [set_holdings] at hlt ⊢
    simp only [List.length_map] at hlt
    rw [getD_eq_getElem _ _ _ (by simpa using hlt),
      getD_eq_getElem _ _ _ hlt]
    simp
  | opt holder hr hlt ih => exact conserves_optimize_holder holder ih
  | sweep hr ih => exact sweepGo_conserves _ _ _ ih

/-- C2: after `set_holdings` and along any sequence of best-response calls
and sweeps, every holder's parts sum to its fixed holding (exactly, in ℚ). -/
theorem claim2_conservation (s : Scenario) (hr : Reachable s) :
    ∀ holder, holder < s.distribution.length →
      (s.distribution.getD holder []).sum = s.holdings.getD holder 0 :=
  reachable_conserves hr

theorem claim2_witness :
    ((optimize_all_holders (set_holdings (Scenario.init 5) [1, 2, 12])).1.distribution.getD 2 []).sum =
      (optimize_all_holders (set_holdings (Scenario.init 5) [1, 2, 12])).1.holdings.getD 2 0 :=
  claim2_conservation _ (Reachable.sweep (Reachable.start 5 [1, 2, 12])) 2 (by decide)

theorem reachable_partsBound {s : Scenario} (hr : Reachable s)
    (hN : 1 ≤ s.number_of_validators) : partsBound s := by
  induction hr with
  | start n hs =>
    intro holder hlt
    simp only [set_holdings] at hlt ⊢
    simp only [List.length_map] at hlt
    rw [getD_eq_getElem _ _ _ (by simpa using hlt)]
    simp only [List.getElem_map]
    exact ⟨by simp, by simpa [set_holdings] using hN⟩
  | opt holder hr hlt ih =>
    exact partsBound_optimize_holder holder (by exact hN) (ih (by exact hN))
  | sweep hr ih =>
    have hN' : 1 ≤ _ := hN
    rw [optimize_all_holders, (sweepGo_fields _ _ _).1] at hN'
    exact sweepGo_partsBound _ _ _ hN' (ih hN')

/-- C10: with at least one validator slot, every reachable state gives every
holder a non-empty parts list of length at most `number_of_validators`. -/
theorem claim10_parts_bound (s : Scenario) (hr : Reachable s)
    (hN : 1 ≤ s.number_of_validators) :
    ∀ holder, holder < s.distribution.length →
      s.distribution.getD holder [] ≠ [] ∧
      (s.distribution.getD holder []).length ≤ s.number_of_validators :=
  reachable_partsBound hr hN

theorem claim10_witness :
    (optimize_all_holders (set_holdings (Scenario.init 5) [1, 2, 12])).1.distribution.getD 2 [] ≠ [] ∧
    ((optimize_all_holders (set_holdings (Scenario.init 5) [1, 2, 12])).1.distribution.getD 2 []).length ≤
      (optimize_all_holders (set_holdings (Scenario.init 5) [1, 2, 12])).1.number_of_validators :=
  claim10_parts_bound _ (Reachable.sweep (Reachable.start 5 [1, 2, 12])) (by decide) 2 (by decide)

/-- C5 (evaluation at the failing input): with `number_of_validators = 0` and
holdings `[1]`, `naive_staking_amout` returns `1`, the sum of *all* holdings,
because the Python slice `sorted(holdings)[-0:]` is the whole list — not `0`
as the claim states. -/
theorem claim5_zero_validators_eval :
    naive_staking_amout
      { number_of_validators := 0, holdings := [1], distribution := [[1]] } = 1 := by
  decide

/-- C6: `stake_loss` returns exactly
`(naive_staking_amout - optimized_staking_amout) / naive_staking_amout` when
the naive stake is nonzero, and produces no result (the unguarded division
raises `ZeroDivisionError`, modelled as `none`) when it is zero. -/
theorem claim6_stake_loss (s : Scenario) :
    (naive_staking_amout s ≠ 0 →
      stake_loss s = some
        ((naive_staking_amout s - optimized_staking_amout s) / naive_staking_amout s)) ∧
    (naive_staking_amout s = 0 → stake_loss s = none) := by
  constructor <;> intro h <;> simp [stake_loss, h]

theorem claim6_witness :
    stake_loss (set_holdings (Scenario.init 1) [2]) = some
      ((naive_staking_amout (set_holdings (Scenario.init 1) [2]) -
          optimized_staking_amout (set_holdings (Scenario.init 1) [2])) /
        naive_staking_amout (set_holdings (Scenario.init 1) [2])) :=
  (claim6_stake_loss (set_holdings (Scenario.init 1) [2])).1 (by decide)

/-! ## Sums of top slices: machinery for claim C4 -/

theorem pySorted_perm (xs : List ℚ) : List.Perm (pySorted xs) xs :=
  List.perm_insertionSort _ xs

theorem pySorted_sorted (xs : List ℚ) : (pySorted xs).Sorted (· ≤ ·) :=
  List.sorted_insertionSort _ xs

theorem topNsum_perm (n : Nat) {xs ys : List ℚ} (h : List.Perm xs ys) :
    topNsum n xs = topNsum n ys := by
  have hs : pySorted xs = pySorted ys :=
    List.eq_of_perm_of_sorted (((pySorted_perm xs).trans h).trans (pySorted_perm ys).symm)
      (pySorted_sorted xs) (pySorted_sorted ys)
  rw [topNsum, topNsum, hs]

theorem sum_le_sum_of_le_nonneg {t m : Multiset ℚ} (h : t ≤ m)
    (hm : ∀ x ∈ m, 0 ≤ x) : t.sum ≤ m.sum := by
  obtain ⟨u, rfl⟩ := exists_add_of_le h
  rw [Multiset.sum_add]
  refine le_add_of_nonneg_right (Multiset.sum_nonneg ?_)
  intro x hx
  exact hm x (by simp [hx])

/-- Any sub-multiset of at most `n` elements of a sorted non-negative list
sums to at most the sum of the list's last `n` elements. -/
theorem sum_le_sum_drop :
    ∀ (ys : List ℚ), ys.Sorted (· ≤ ·) → (∀ x ∈ ys, 0 ≤ x) →
      ∀ (n : Nat) (t : Multiset ℚ), t ≤ (ys : Multiset ℚ) → Multiset.card t ≤ n →
        t.sum ≤ (ys.drop (ys.length - n)).sum := by
  intro ys
  induction ys with
  | nil =>
    intro _ _ n t ht hc
    rw [Multiset.le_zero.mp ht]
    simp
  | cons y ys' ih =>
    intro hsorted hnn n t ht hc
    have hy_le : ∀ b ∈ ys', y ≤ b := (List.sorted_cons.mp hsorted).1
    have hsorted' : ys'.Sorted (· ≤ ·) := (List.sorted_cons.mp hsorted).2
    have hnn' : ∀ x ∈ ys', 0 ≤ x := fun x hx => hnn x (List.mem_cons_of_mem y hx)
    by_cases hlen : (y :: ys').length ≤ n
    · rw [Nat.sub_eq_zero_of_le hlen, List.drop_zero]
      calc t.sum ≤ ((y :: ys' : List ℚ) : Multiset ℚ).sum :=
            sum_le_sum_of_le_nonneg ht (by simpa using hnn)
        _ = (y :: ys').sum := Multiset.sum_coe _
    · have hn_le : n ≤ ys'.length := by
        simp only [List.length_cons] at hlen
        omega
      have hdrop : (y :: ys').drop ((y :: ys').length - n) =
          ys'.drop (ys'.length - n) := by
        have he : (y :: ys').length - n = (ys'.length - n) + 1 := by
          simp only [List.length_cons]
          omega
        rw [he, List.drop_succ_cons]
      rw [hdrop]
      by_cases hy : y ∈ t
      · have hn1 : 1 ≤ n := by
          have : 0 < Multiset.card t := Multiset.card_pos.mpr (fun h0 => by simp [h0] at hy)
          omega
        have ht' : t.erase y ≤ (ys' : Multiset ℚ) := by
          apply Multiset.erase_le_iff_le_cons.mpr
          rw [Multiset.cons_coe]
          exact ht
        have hc' : Multiset.card (t.erase y) ≤ n - 1 := by
          rw [Multiset.card_erase_of_mem hy, Nat.pred_eq_sub_one]
          omega
        have hrec := ih hsorted' hnn' (n - 1) (t.erase y) ht' hc'
        have hidx : ys'.length - n < ys'.length := by omega
        have hsplit : ys'.drop (ys'.length - n) =
            ys'[ys'.length - n] :: ys'.drop ((ys'.length - n) + 1) :=
          List.drop_eq_getElem_cons hidx
        have hshift : ys'.length - (n - 1) = (ys'.length - n) + 1 := by omega
        rw [hshift] at hrec
        have htsum : t.sum = y + (t.erase y).sum := by
          rw [← Multiset.sum_cons, Multiset.cons_erase hy]
        rw [htsum, hsplit, List.sum_cons]
        have hyx : y ≤ ys'[ys'.length - n] := hy_le _ (List.getElem_mem hidx)
        exact add_le_add hyx hrec
      · have hcons : t ≤ y ::ₘ (ys' : Multiset ℚ) := by
          rw [Multiset.cons_coe]
          exact ht
        have h2 : t.erase y ≤ (ys' : Multiset ℚ) :=
          Multiset.erase_le_iff_le_cons.mpr hcons
        rw [Multiset.erase_of_not_mem hy] at h2
        exact ih hsorted' hnn' n t h2 hc

/-- Any sub-multiset of at most `n ≥ 1` elements of a non-negative list sums
to at most the top-`n` sum of the list. -/
theorem topNsum_upper {n : Nat} (hn : n ≠ 0) (xs : List ℚ)
    (hnn : ∀ x ∈ xs, 0 ≤ x) (t : Multiset ℚ) (ht : t ≤ (xs : Multiset ℚ))
    (hc : Multiset.card t ≤ n) : t.sum ≤ topNsum n xs := by
  have hperm : ((pySorted xs : List ℚ) : Multiset ℚ) = (xs : Multiset ℚ) :=
    Multiset.coe_eq_coe.mpr (pySorted_perm xs)
  rw [topNsum, lastSlice_eq_drop hn]
  exact sum_le_sum_drop (pySorted xs) (pySorted_sorted xs)
    (fun x hx => hnn x ((pySorted_perm xs).mem_iff.mp hx)) n t
    (by rw [hperm]; exact ht) hc

theorem lastSlice_zero (xs : List ℚ) : lastSlice 0 xs = xs := by
  simp [lastSlice]

/-- Replacing a batch of non-negative parts by their one-account total can
only raise the top-`n` sum. -/
theorem topNsum_step {n : Nat} (hn : n ≠ 0) (ps R : List ℚ)
    (hps : ∀ p ∈ ps, 0 ≤ p) (hR : ∀ x ∈ R, 0 ≤ x) :
    topNsum n (ps ++ R) ≤ topNsum n (ps.sum :: R) := by
  have hslice : topNsum n (ps ++ R) =
      ((pySorted (ps ++ R)).drop ((pySorted (ps ++ R)).length - n)).sum := by
    rw [topNsum, lastSlice_eq_drop hn]
  set t : Multiset ℚ :=
    (((pySorted (ps ++ R)).drop ((pySorted (ps ++ R)).length - n) : List ℚ) : Multiset ℚ)
    with htdef
  have htsum : t.sum =
      ((pySorted (ps ++ R)).drop ((pySorted (ps ++ R)).length - n)).sum :=
    Multiset.sum_coe _
  have htle : t ≤ ((ps ++ R : List ℚ) : Multiset ℚ) := by
    have h1 : t ≤ ((pySorted (ps ++ R) : List ℚ) : Multiset ℚ) :=
      Multiset.coe_le.mpr (List.drop_sublist _ _).subperm
    have h2 : ((pySorted (ps ++ R) : List ℚ) : Multiset ℚ) =
        ((ps ++ R : List ℚ) : Multiset ℚ) :=
      Multiset.coe_eq_coe.mpr (pySorted_perm _)
    rw [← h2]
    exact h1
  have hcard : Multiset.card t ≤ n := by
    rw [htdef, Multiset.coe_card, List.length_drop]
    omega
  have hdecomp : (t - (ps : Multiset ℚ)) + (t ⊓ (ps : Multiset ℚ)) = t :=
    Multiset.sub_add_inter t _
  have ht2 : t - (ps : Multiset ℚ) ≤ (R : Multiset ℚ) := by
    apply Multiset.sub_le_iff_le_add.mpr
    rw [Multiset.coe_add]
    have hp : ((ps ++ R : List ℚ) : Multiset ℚ) = ((R ++ ps : List ℚ) : Multiset ℚ) :=
      Multiset.coe_eq_coe.mpr List.perm_append_comm
    rw [← hp]
    exact htle
  have ht1 : t ⊓ (ps : Multiset ℚ) ≤ (ps : Multiset ℚ) := Multiset.inter_le_right _ _
  have hsum_t : t.sum = (t - (ps : Multiset ℚ)).sum + (t ⊓ (ps : Multiset ℚ)).sum := by
    conv_lhs => rw [← hdecomp]
    exact Multiset.sum_add _ _
  have h1sum : (t ⊓ (ps : Multiset ℚ)).sum ≤ ps.sum := by
    have h := sum_le_sum_of_le_nonneg ht1 (by simpa using hps)
    rwa [Multiset.sum_coe] at h
  have hRnn : ∀ x ∈ (ps.sum :: R), 0 ≤ x := by
    intro x hx
    rcases List.mem_cons.mp hx with rfl | hx'
    · exact List.sum_nonneg hps
    · exact hR x hx'
  rw [hslice, ← htsum]
  by_cases h0 : t ⊓ (ps : Multiset ℚ) = 0
  · have hteq : t = t - (ps : Multiset ℚ) := by
      conv_lhs => rw [← hdecomp]
      rw [h0, add_zero]
    have ht2' : t ≤ ((ps.sum :: R : List ℚ) : Multiset ℚ) := by
      rw [hteq]
      calc t - (ps : Multiset ℚ) ≤ (R : Multiset ℚ) := ht2
        _ ≤ ps.sum ::ₘ (R : Multiset ℚ) := Multiset.le_cons_self _ _
        _ = ((ps.sum :: R : List ℚ) : Multiset ℚ) := Multiset.cons_coe _ _
    exact topNsum_upper hn _ hRnn t ht2' hcard
  · have hpos : 0 < Multiset.card (t ⊓ (ps : Multiset ℚ)) := Multiset.card_pos.mpr h0
    have ht'le : ps.sum ::ₘ (t - (ps : Multiset ℚ)) ≤
        ((ps.sum :: R : List ℚ) : Multiset ℚ) := by
      rw [← Multiset.cons_coe]
      exact Multiset.cons_le_cons _ ht2
    have ht'card : Multiset.card (ps.sum ::ₘ (t - (ps : Multiset ℚ))) ≤ n := by
      rw [Multiset.card_cons]
      have hsplit : Multiset.card t =
          Multiset.card (t - (ps : Multiset ℚ)) + Multiset.card (t ⊓ (ps : Multiset ℚ)) := by
        conv_lhs => rw [← hdecomp]
        exact Multiset.card_add _ _
      omega
    have ht'sum : t.sum ≤ (ps.sum ::ₘ (t - (ps : Multiset ℚ))).sum := by
      rw [Multiset.sum_cons, hsum_t]
      linarith
    exact le_trans ht'sum (topNsum_upper hn _ hRnn _ ht'le ht'card)

/-- Replacing every holder's parts by its one-account total can only raise
the top-`n` sum: iterate `topNsum_step` over the holders. -/
theorem topNsum_flatten_le {n : Nat} (hn : n ≠ 0) :
    ∀ (pairs : List (List ℚ × ℚ)) (R : List ℚ),
      (∀ pr ∈ pairs, pr.1.sum = pr.2 ∧ ∀ p ∈ pr.1, 0 ≤ p) →
      (∀ x ∈ R, 0 ≤ x) →
      topNsum n ((pairs.map Prod.fst).flatten ++ R) ≤
        topNsum n (pairs.map Prod.snd ++ R) := by
  intro pairs
  induction pairs with
  | nil => intro R _ _; simp
  | cons pr rest ih =>
    intro R hpairs hR
    obtain ⟨hsum, hnn⟩ := hpairs pr (List.mem_cons_self _ _)
    have hrest : ∀ q ∈ rest, q.1.sum = q.2 ∧ ∀ p ∈ q.1, 0 ≤ p :=
      fun q hq => hpairs q (List.mem_cons_of_mem _ hq)
    have hFnn : ∀ x ∈ (rest.map Prod.fst).flatten ++ R, 0 ≤ x := by
      intro x hx
      rcases List.mem_append.mp hx with hx' | hx'
      · obtain ⟨l, hl, hxl⟩ := List.mem_flatten.mp hx'
        obtain ⟨q, hq, rfl⟩ := List.mem_map.mp hl
        exact (hrest q hq).2 x hxl
      · exact hR x hx'
    have hL : (((pr :: rest).map Prod.fst).flatten ++ R) =
        pr.1 ++ ((rest.map Prod.fst).flatten ++ R) := by
      simp [List.append_assoc]
    rw [hL]
    calc topNsum n (pr.1 ++ ((rest.map Prod.fst).flatten ++ R))
        ≤ topNsum n (pr.1.sum :: ((rest.map Prod.fst).flatten ++ R)) :=
          topNsum_step hn _ _ hnn hFnn
      _ = topNsum n ((rest.map Prod.fst).flatten ++ (pr.1.sum :: R)) :=
          topNsum_perm n List.perm_middle.symm
      _ ≤ topNsum n (rest.map Prod.snd ++ (pr.1.sum :: R)) := by
          apply ih (pr.1.sum :: R) hrest
          intro x hx
          rcases List.mem_cons.mp hx with rfl | hx'
          · exact List.sum_nonneg hnn
          · exact hR x hx'
      _ = topNsum n (pr.1.sum :: (rest.map Prod.snd ++ R)) :=
          topNsum_perm n List.perm_middle
      _ = topNsum n ((pr :: rest).map Prod.snd ++ R) := by
          rw [hsum]
          simp

/-- C4: at any state where a full sweep reports no change (with the data
model's well-formed distribution and non-negative holdings), the optimized
top-N stake does not exceed the naive top-N stake. -/
theorem claim4_optimized_le_naive (s : Scenario)
    (hwf : s.distribution.length = s.holdings.length)
    (hnn : ∀ x ∈ s.holdings, 0 ≤ x)
    (hfix : (optimize_all_holders s).2 = false) :
    optimized_staking_amout s ≤ naive_staking_amout s := by
  obtain ⟨-, hall⟩ := optimize_all_holders_fix hfix
  have hent : ∀ h, h < s.distribution.length →
      s.distribution.getD h [] = bestAlloc s h := by
    intro h hlt
    have hmem : h ∈ List.range s.holdings.length := List.mem_range.mpr (by omega)
    exact (optimize_holder_snd_false (hall h hmem)).symm
  have hsum : ∀ h, h < s.distribution.length →
      (s.distribution.getD h []).sum = s.holdings.getD h 0 := by
    intro h hlt
    rw [hent h hlt]
    exact bestAlloc_sum s h
  have hpnn : ∀ h, h < s.distribution.length →
      ∀ p ∈ s.distribution.getD h [], 0 ≤ p := by
    intro h hlt
    rw [hent h hlt]
    apply bestAlloc_nonneg
    have hh : h < s.holdings.length := by omega
    rw [getD_eq_getElem _ _ _ hh]
    exact hnn _ (List.getElem_mem hh)
  by_cases hN : s.number_of_validators = 0
  · apply le_of_eq
    have hmap : s.distribution.map List.sum = s.holdings := by
      apply List.ext_getElem (by simpa using hwf)
      intro i h1 h2
      simp only [List.getElem_map]
      have h1' : i < s.distribution.length := by simpa using h1
      have h := hsum i h1'
      rw [getD_eq_getElem _ _ _ h1', getD_eq_getElem _ _ _ h2] at h
      exact h
    show topNsum s.number_of_validators s.distribution.flatten =
      topNsum s.number_of_validators s.holdings
    rw [hN, topNsum, topNsum, lastSlice_zero, lastSlice_zero,
      (pySorted_perm _).sum_eq, (pySorted_perm _).sum_eq, List.sum_flatten, hmap]
  · have hf : List.Forall₂ (fun ps a => ps.sum = a ∧ ∀ p ∈ ps, 0 ≤ p)
        s.distribution s.holdings := by
      rw [List.forall₂_iff_get]
      refine ⟨hwf, ?_⟩
      intro i h1 h2
      constructor
      · have h := hsum i h1
        rw [getD_eq_getElem _ _ _ h1, getD_eq_getElem _ _ _ h2] at h
        simpa [List.get_eq_getElem] using h
      · intro p hp
        have h := hpnn i h1
        rw [getD_eq_getElem _ _ _ h1] at h
        exact h p (by simpa [List.get_eq_getElem] using hp)
    have hfst : (s.distribution.zip s.holdings).map Prod.fst = s.distribution :=
      List.map_fst_zip _ _ (le_of_eq hwf)
    have hsnd : (s.distribution.zip s.holdings).map Prod.snd = s.holdings :=
      List.map_snd_zip _ _ (le_of_eq hwf.symm)
    have hprs : ∀ pr ∈ s.distribution.zip s.holdings,
        pr.1.sum = pr.2 ∧ ∀ p ∈ pr.1, 0 ≤ p := by
      intro pr hpr
      obtain ⟨a, b⟩ := pr
      exact List.forall₂_zip hf hpr
    have hmain := topNsum_flatten_le hN (s.distribution.zip s.holdings) [] hprs (by simp)
    rw [hfst, hsnd, List.append_nil, List.append_nil] at hmain
    exact hmain

theorem claim4_witness :
    optimized_staking_amout (set_holdings (Scenario.init 1) [3]) ≤
      naive_staking_amout (set_holdings (Scenario.init 1) [3]) :=
  claim4_optimized_le_naive (set_holdings (Scenario.init 1) [3])
    (by decide) (by decide) (by decide)

end StakingGame
